import Mathlib

set_option maxRecDepth 40000

/-!
Verification of the structural pattern-matching and patch-injection engine of
the better-antigravity auto-run fix (src/fixes/auto-run-fix/patch.js).

File contents are modelled as `List Char`.  Each JavaScript regular expression
used by the engine is translated into an explicit matcher; every quantifier in
those regexes is followed by a character that the quantified class cannot
match, so greedy matching degenerates to maximal munch and the matchers are
deterministic (the two genuinely backtracking pieces, the bodies of the
already-patched regex and of the cleanup regex, are handled by explicit
search over the possible splits).
-/

namespace Patch

/-- The class matched by the JavaScript regex token backslash-w,
i.e. [A-Za-z0-9_]. -/
def isWordChar (c : Char) : Bool := c.isAlphanum || c == '_'

/-- The class matched by the JavaScript regex token backslash-s (whitespace),
restricted to the code points that can occur here. -/
def isSpaceJS (c : Char) : Bool :=
  c == ' ' || c == '\t' || c == '\n' || c == '\r' || c == '\x0b' || c == '\x0c'

/-- Character list of a string literal. -/
def strChars (s : String) : List Char := s.data

/-- Consume an expected literal: `expectL lit s` returns the rest of `s` after
`lit` when `lit` is a prefix of `s`, and fails otherwise. -/
def expectL (lit : List Char) (s : List Char) : Option (List Char) :=
  if lit.isPrefixOf s then some (s.drop lit.length) else none

/-- Does `pat` occur as a substring of `s`?  (JS `String.prototype.includes`.) -/
def hasSub (s pat : List Char) : Bool :=
  pat.isPrefixOf s ||
    match s with
    | [] => false
    | _ :: t => hasSub t pat

/-- Scan every suffix of `s` with `p` (used to model an unanchored regex test). -/
def scanB (p : List Char → Bool) (s : List Char) : Bool :=
  p s ||
    match s with
    | [] => false
    | _ :: t => scanB p t

/-- Index of the first occurrence of `pat` in `s` (JS `String.prototype.indexOf`;
returns `s.length` instead of `-1` when `pat` does not occur, a case that is
unreachable where the engine uses it). -/
def indexOfSub (s pat : List Char) : Nat :=
  if pat.isPrefixOf s then 0
  else
    match s with
    | [] => 0
    | _ :: t => indexOfSub t pat + 1

/-- JS `String.prototype.substring s a b` with `a ≤ b`: the characters of `s`
at indices in `[a, min b s.length)`. -/
def substringJS (s : List Char) (a b : Nat) : List Char := (s.take b).drop a

/-- Fuelled worker for `countOcc`: every step either consumes the separator
(which is non-empty in the occurrence branch) or one character, so the fuel
`s.length + 1` of the wrapper can never run out before `s` is exhausted. -/
def countOccAux (sep : List Char) : Nat → List Char → Nat
  | 0, _ => 0
  | fuel + 1, s =>
    if sep.isPrefixOf s ∧ sep ≠ [] then countOccAux sep fuel (s.drop sep.length) + 1
    else
      match s with
      | [] => 0
      | _ :: t => countOccAux sep fuel t

/-- Number of non-overlapping, leftmost-first occurrences of the non-empty
separator `sep` in `s`; this is `s.split(sep).length - 1` in JS. -/
def countOcc (s sep : List Char) : Nat := countOccAux sep (s.length + 1) s

/-- JS `String.prototype.replace` with a plain string pattern: replace the
first occurrence of `pat` by `rep` (the string is returned unchanged when
`pat` does not occur). -/
def replaceFirst (s pat rep : List Char) : List Char :=
  if pat.isPrefixOf s then rep ++ s.drop pat.length
  else
    match s with
    | [] => []
    | c :: t => c :: replaceFirst t pat rep

/-- The five capture groups of the stage-1 onChange-handler regex of
`analyzeFile` (patch.js line 159), together with the full matched text. -/
structure OnCaps where
  assignVar : List Char
  callbackAlias : List Char
  argName : List Char
  enumAlias : List Char
  confirmFn : List Char
  fullMatch : List Char
deriving DecidableEq

/-- Attempt the stage-1 onChange-handler regex at the start of `s`.  Translates
patch.js line 159; every quantified class there is followed by a character
outside the class, so each piece is a maximal munch, and the backreferences
are literal comparisons. -/
def matchOnChangeAt (s : List Char) : Option OnCaps :=
  let g1 := s.takeWhile isWordChar
  let s1 := s.dropWhile isWordChar
  if g1.isEmpty then none else
  match expectL (strChars "=") s1 with
  | none => none
  | some s2 =>
    let g2 := s2.takeWhile isWordChar
    let s3 := s2.dropWhile isWordChar
    if g2.isEmpty then none else
    match expectL (strChars "(") s3 with
    | none => none
    | some s4 =>
      let g3 := s4.takeWhile isWordChar
      let s5 := s4.dropWhile isWordChar
      if g3.isEmpty then none else
      match expectL (strChars "=>\x7b") s5 with
      | none => none
      | some s6 =>
        let hv := s6.takeWhile isWordChar
        let s7 := s6.dropWhile isWordChar
        if hv.isEmpty then none else
        match expectL (strChars "?.setTerminalAutoExecutionPolicy?.(") s7 with
        | none => none
        | some s8 =>
          match expectL (g3 ++ strChars "),") s8 with
          | none => none
          | some s9 =>
            match expectL (g3 ++ strChars "===") s9 with
            | none => none
            | some s10 =>
              let g4 := s10.takeWhile isWordChar
              let s11 := s10.dropWhile isWordChar
              if g4.isEmpty then none else
              match expectL (strChars ".EAGER&&") s11 with
              | none => none
              | some s12 =>
                let g5 := s12.takeWhile isWordChar
                let s13 := s12.dropWhile isWordChar
                if g5.isEmpty then none else
                match expectL (strChars "(!0)\x7d,[") s13 with
                | none => none
                | some s14 =>
                  let deps := s14.takeWhile (fun c => isWordChar c || c == ',')
                  let s15 := s14.dropWhile (fun c => isWordChar c || c == ',')
                  match expectL (strChars "])") s15 with
                  | none => none
                  | some _ =>
                    some { assignVar := g1, callbackAlias := g2, argName := g3,
                           enumAlias := g4, confirmFn := g5,
                           fullMatch :=
                             g1 ++ strChars "=" ++ g2 ++ strChars "(" ++ g3 ++
                             strChars "=>\x7b" ++ hv ++
                             strChars "?.setTerminalAutoExecutionPolicy?.(" ++
                             g3 ++ strChars ")," ++ g3 ++ strChars "===" ++ g4 ++
                             strChars ".EAGER&&" ++ g5 ++ strChars "(!0)\x7d,[" ++
                             deps ++ strChars "])" }

/-- Leftmost match of the stage-1 regex (JS non-global `String.prototype.match`):
try the matcher at every position, first success wins. -/
def onChangeFind (s : List Char) : Option OnCaps :=
  match s with
  | [] => matchOnChangeAt []
  | c :: t =>
    match matchOnChangeAt (c :: t) with
    | some caps => some caps
    | none => onChangeFind t

/-- Attempt the effect-shape regex of patch.js line 198 at the start of `s`
(the word-boundary requirement is enforced by the caller).  The alias must be
a maximal word run of exactly 2 or 3 characters (a longer run cannot match
because the backslash-w quantifier is followed by a parenthesis), the body is
the maximal brace-free run, which must have between 3 and 80 characters.
Returns the alias and the rest of the input after the match. -/
def matchEffectAt (s : List Char) : Option (List Char × List Char) :=
  let w := s.takeWhile isWordChar
  let s1 := s.dropWhile isWordChar
  if w.length = 2 ∨ w.length = 3 then
    match expectL (strChars "(()=>\x7b") s1 with
    | none => none
    | some s2 =>
      let body := s2.takeWhile (fun c => !(c == '\x7d'))
      let s3 := s2.dropWhile (fun c => !(c == '\x7d'))
      if 3 ≤ body.length ∧ body.length ≤ 80 then
        match expectL (strChars "\x7d,[") s3 with
        | none => none
        | some s4 => some (w, s4)
      else none
  else none

/-- Consume `return`, then JS whitespace, then `()=>` (the tail of the cleanup
regex of patch.js line 208).  The whitespace star is followed by `(`, which is
not whitespace, so it is a maximal munch. -/
def matchRetAt (s : List Char) : Option (List Char) :=
  match expectL (strChars "return") s with
  | none => none
  | some s1 => expectL (strChars "()=>") (s1.dropWhile isSpaceJS)

/-- Greedy backtracking for the brace-free-star piece of the cleanup regex:
try the split points inside `R` from the longest prefix downwards, i.e. return
the match of `return`-whitespace-`()=>` at the latest possible position. -/
def lastRet (R rest : List Char) : Option (List Char) :=
  match R with
  | [] => matchRetAt rest
  | c :: R' =>
    match lastRet R' rest with
    | some r => some r
    | none => matchRetAt (c :: R' ++ rest)

/-- Attempt the cleanup-shape regex of patch.js line 208 at the start of `s`
(word boundary enforced by the caller): a 2-3 character alias, `(()=>` and an
opening brace, then a brace-free run that ends in `return`, whitespace and
`()=>`.  Returns the alias and the rest of the input after the match. -/
def matchCleanupAt (s : List Char) : Option (List Char × List Char) :=
  let w := s.takeWhile isWordChar
  let s1 := s.dropWhile isWordChar
  if w.length = 2 ∨ w.length = 3 then
    match expectL (strChars "(()=>\x7b") s1 with
    | none => none
    | some s2 =>
      let body := s2.takeWhile (fun c => !(c == '\x7d'))
      let s3 := s2.dropWhile (fun c => !(c == '\x7d'))
      match lastRet body s3 with
      | none => none
      | some s4 => some (w, s4)
  else none

/-- One pass of a global JS regex over the input: collect the matched aliases
left to right, skipping past each match (`exec` advances `lastIndex` to the
end of the match).  `prevW` records whether the previous character is a word
character, which decides the word-boundary condition at the current position.
Both matchers only succeed after consuming a final non-word character, so the
scan resumes with the boundary condition satisfied. -/
def scanAliasesAux (m : List Char → Option (List Char × List Char)) :
    Nat → Bool → List Char → List (List Char)
  | 0, _, _ => []
  | _, _, [] => []
  | fuel + 1, prevW, c :: rest =>
    match (if prevW then none else m (c :: rest)) with
    | some (al, after) =>
      al ::
        scanAliasesAux m fuel false
          (List.drop (max 1 ((c :: rest).length - after.length)) (c :: rest))
    | none => scanAliasesAux m fuel (isWordChar c) rest

/-- One pass over the full input: the fuel `s.length` suffices because every
step of the worker consumes at least one character. -/
def scanAliases (m : List Char → Option (List Char × List Char))
    (prevW : Bool) (s : List Char) : List (List Char) :=
  scanAliasesAux m s.length prevW s

/-- All matches of the effect-shape regex over `s`, in order. -/
def effectScan (s : List Char) : List (List Char) := scanAliases matchEffectAt false s

/-- All matches of the cleanup-shape regex over `s`, in order. -/
def cleanupScan (s : List Char) : List (List Char) := scanAliases matchCleanupAt false s

/-- Add `w` to the tally entry of key `a`, appending a new entry when the key
is absent.  This is `obj[a] = (obj[a] || 0) + w` on a JS object whose keys are
kept in insertion order. -/
def bump (t : List (List Char × Nat)) (a : List Char) (w : Nat) :
    List (List Char × Nat) :=
  match t with
  | [] => [(a, w)]
  | (b, c) :: rest => if a = b then (b, c + w) :: rest else (b, c) :: bump rest a w

/-- The selection loop of patch.js lines 221-228: walk the entry list in
order and keep the first entry whose count strictly exceeds the running
maximum (initially 0, initial choice none). -/
def pickMaxGo (best : Option (List Char)) (maxCount : Nat) :
    List (List Char × Nat) → Option (List Char)
  | [] => best
  | (a, c) :: t => if maxCount < c then pickMaxGo (some a) c t else pickMaxGo best maxCount t

/-- Decimal value of a digit string (used for array-index key ordering). -/
def keyVal (k : List Char) : Nat :=
  k.foldl (fun n c => n * 10 + (c.toNat - 48)) 0

/-- Is `k` an array-index property key in the ECMAScript sense: a canonical
decimal numeral (digits only, no leading zero unless the key is exactly `0`)
whose value is below 2^32 - 1?  `Object.entries` enumerates such keys before
all other string keys.  The effect regex can capture such keys, e.g. the
alias `12` from text such as `,12(()=>...`. -/
def isArrayIndexKey (k : List Char) : Bool :=
  k.all (fun c => c.isDigit) &&
    (match k with
     | [] => false
     | [_] => true
     | c :: _ :: _ => !(c == '0')) &&
    decide (keyVal k < 4294967295)

/-- Insert an entry into a list sorted by ascending numeric key value. -/
def insertByVal (p : List Char × Nat) : List (List Char × Nat) → List (List Char × Nat)
  | [] => [p]
  | q :: t => if keyVal p.1 < keyVal q.1 then p :: q :: t else q :: insertByVal p t

/-- Sort entries by ascending numeric key value (the tally's keys are
distinct strings, so distinct canonical numerals never tie). -/
def sortByVal : List (List Char × Nat) → List (List Char × Nat)
  | [] => []
  | p :: t => insertByVal p (sortByVal t)

/-- The enumeration order of `Object.entries` on the tally object
(ECMAScript OrdinaryOwnPropertyKeys): array-index keys first in ascending
numeric order, then the remaining string keys in insertion order. -/
def entriesJS (t : List (List Char × Nat)) : List (List Char × Nat) :=
  sortByVal (t.filter (fun q => isArrayIndexKey q.1)) ++
    t.filter (fun q => !isArrayIndexKey q.1)

/-- Pick the first key of maximal count from the tally, walking it in the
`Object.entries` enumeration order of patch.js line 223 (none when every
count is zero, in particular when the tally is empty). -/
def pickMax (t : List (List Char × Nat)) : Option (List Char) :=
  pickMaxGo none 0 (entriesJS t)

/-- Attempt the policy-variable regex of patch.js line 174 at the start of
`s`: capture the assigned identifier of
`VAR=HANDLER?.terminalAutoExecutionPolicy??ENUM.OFF` where `ENUM` is the
stage-1 enum alias. -/
def matchPolicyAt (s enumAlias : List Char) : Option (List Char) :=
  let g1 := s.takeWhile isWordChar
  let s1 := s.dropWhile isWordChar
  if g1.isEmpty then none else
  match expectL (strChars "=") s1 with
  | none => none
  | some s2 =>
    let g2 := s2.takeWhile isWordChar
    let s3 := s2.dropWhile isWordChar
    if g2.isEmpty then none else
    match expectL (strChars "?.terminalAutoExecutionPolicy??" ++ enumAlias ++ strChars ".OFF") s3 with
    | none => none
    | some _ => some g1

/-- Leftmost match of the policy-variable regex in the window text. -/
def policyFind (s enumAlias : List Char) : Option (List Char) :=
  match s with
  | [] => matchPolicyAt [] enumAlias
  | c :: t =>
    match matchPolicyAt (c :: t) enumAlias with
    | some v => some v
    | none => policyFind t enumAlias

/-- Attempt the secure-mode-variable regex of patch.js line 185 at the start
of `s`. -/
def matchSecureAt (s : List Char) : Option (List Char) :=
  let g1 := s.takeWhile isWordChar
  let s1 := s.dropWhile isWordChar
  if g1.isEmpty then none else
  match expectL (strChars "=") s1 with
  | none => none
  | some s2 =>
    let g2 := s2.takeWhile isWordChar
    let s3 := s2.dropWhile isWordChar
    if g2.isEmpty then none else
    match expectL (strChars "?.secureModeEnabled??!1") s3 with
    | none => none
    | some _ => some g1

/-- Leftmost match of the secure-mode-variable regex in the window text. -/
def secureFind (s : List Char) : Option (List Char) :=
  match s with
  | [] => matchSecureAt []
  | c :: t =>
    match matchSecureAt (c :: t) with
    | some v => some v
    | none => secureFind t

/-- The stage-1 match index: patch.js line 168 computes it as
`content.indexOf(fullMatch)`. -/
def matchIndexOf (content : List Char) (caps : OnCaps) : Nat :=
  indexOfSub content caps.fullMatch

/-- The backward context window of stages 2 and 3:
`content.substring(Math.max(0, matchIndex - 2000), matchIndex)`. -/
def windowOf (content : List Char) (caps : OnCaps) : List Char :=
  substringJS content (matchIndexOf content caps - 2000) (matchIndexOf content caps)

/-- The stage-4 window:
`content.substring(Math.max(0, matchIndex - 5000), matchIndex + 5000)`. -/
def nearbyOf (content : List Char) (caps : OnCaps) : List Char :=
  substringJS content (matchIndexOf content caps - 5000) (matchIndexOf content caps + 5000)

/-- The stage-4 tally (patch.js lines 197-214): effect-shape matches in the
nearby window at weight 1, excluding the stage-1 callback alias and the
literal aliases `var` and `new`; then cleanup-shape matches over the whole
file at weight 5, excluding only the callback alias. -/
def candidatesOf (content : List Char) (caps : OnCaps) : List (List Char × Nat) :=
  (cleanupScan content).foldl
    (fun t a => if a ≠ caps.callbackAlias then bump t a 5 else t)
    ((effectScan (nearbyOf content caps)).foldl
      (fun t a =>
        if a ≠ caps.callbackAlias ∧ a ≠ strChars "var" ∧ a ≠ strChars "new" then
          bump t a 1
        else t) [])

/-- The body of the synthesized patch fragment between the braces. -/
def patchBody (policyVar enumAlias secureVar confirmFn : List Char) : List Char :=
  policyVar ++ strChars "===" ++ enumAlias ++ strChars ".EAGER&&!" ++
  secureVar ++ strChars "&&" ++ confirmFn ++ strChars "(!0)"

/-- The synthesized patch fragment of patch.js line 237. -/
def patchCodeOf (effectAlias policyVar enumAlias secureVar confirmFn : List Char) :
    List Char :=
  strChars "_aep=" ++ effectAlias ++ strChars "(()=>\x7b" ++
  patchBody policyVar enumAlias secureVar confirmFn ++ strChars "\x7d,[]),"

/-- The per-file patch marker of patch.js line 242 (synthesized but, as claim
C10 records, never read back by `patchFile`). -/
def markerOf (effectAlias policyVar enumAlias : List Char) : List Char :=
  strChars "_aep=" ++ effectAlias ++ strChars "(()=>\x7b" ++ policyVar ++
  strChars "===" ++ enumAlias ++ strChars ".EAGER"

/-- The record built by `analyzeFile` (patch.js lines 239-244), extended with
the extracted symbols that the source keeps in local variables. -/
structure Analysis where
  assignVar : List Char
  callbackAlias : List Char
  argName : List Char
  enumAlias : List Char
  confirmFn : List Char
  policyVar : List Char
  secureVar : List Char
  useEffectAlias : List Char
  target : List Char
  replacement : List Char
  patchMarker : List Char
deriving DecidableEq

/-- Translation of `analyzeFile` (patch.js lines 156-245): the four extraction
stages in order, each failing the whole analysis when it fails, then the
synthesis of the patch fragment. -/
def analyzeFile (content : List Char) : Option Analysis :=
  match onChangeFind content with
  | none => none
  | some caps =>
    match policyFind (windowOf content caps) caps.enumAlias with
    | none => none
    | some policyVar =>
      match secureFind (windowOf content caps) with
      | none => none
      | some secureVar =>
        match pickMax (candidatesOf content caps) with
        | none => none
        | some effectAlias =>
          some { assignVar := caps.assignVar, callbackAlias := caps.callbackAlias,
                 argName := caps.argName, enumAlias := caps.enumAlias,
                 confirmFn := caps.confirmFn, policyVar := policyVar,
                 secureVar := secureVar, useEffectAlias := effectAlias,
                 target := caps.fullMatch,
                 replacement :=
                   patchCodeOf effectAlias policyVar caps.enumAlias secureVar
                     caps.confirmFn ++ caps.fullMatch,
                 patchMarker := markerOf effectAlias policyVar caps.enumAlias }

/-- Does the brace-free run `R` contain `EAGER` with at least one character
before it and at least one character after it?  This decides the backtracking
body piece of the already-patched regex of patch.js line 259. -/
def eagerInner (s : List Char) : Bool :=
  match s with
  | [] => false
  | _ :: t => ((strChars "EAGER").isPrefixOf s && decide (5 < s.length)) || eagerInner t

/-- `EAGER` occurs in `R` at a position that leaves a non-empty piece on each
side. -/
def properEager (R : List Char) : Bool :=
  match R with
  | [] => false
  | _ :: t => eagerInner t

/-- Attempt the already-patched regex of patch.js line 259 at the start of
`s`: `_aep=`, an identifier, `(()=>`, an open brace, a brace-free body that
contains `EAGER` strictly inside, then a close brace and `,[])`. -/
def matchExistingAt (s : List Char) : Bool :=
  match expectL (strChars "_aep=") s with
  | none => false
  | some s1 =>
    let w := s1.takeWhile isWordChar
    let s2 := s1.dropWhile isWordChar
    if w.isEmpty then false else
    match expectL (strChars "(()=>\x7b") s2 with
    | none => false
    | some s3 =>
      let R := s3.takeWhile (fun c => !(c == '\x7d'))
      let s4 := s3.dropWhile (fun c => !(c == '\x7d'))
      properEager R && (strChars "\x7d,[])").isPrefixOf s4

/-- The already-patched test of patch.js lines 258-264:
`content.includes('_aep=')` and the already-patched regex matches somewhere. -/
def alreadyPatchedTest (content : List Char) : Bool :=
  hasSub content (strChars "_aep=") && scanB matchExistingAt content

/-- The state of one target file: the live file's content and the backup
file's content, each absent or present. -/
structure FSFile where
  live : Option (List Char)
  bak : Option (List Char)
deriving DecidableEq

/-- The per-file outcome of `patchFile`, read off from the distinct console
reports of patch.js lines 251-287. -/
inductive PatchResult where
  | notFound
  | alreadyPatched
  | unrecognized
  | ambiguous
  | patched
deriving DecidableEq

/-- The boolean that patch.js `patchFile` returns for each outcome. -/
def isSuccess : PatchResult → Bool
  | .alreadyPatched => true
  | .patched => true
  | _ => false

/-- Translation of `patchFile` (patch.js lines 249-289), parametrized by the
analysis function it calls, so that the dependence of the result on the
analysis can be stated: missing file, already-patched short-circuit,
analysis, verbatim-uniqueness gate, then backup (only when no backup exists)
and whole-file write. -/
def patchFileWith (an : List Char → Option Analysis) (st : FSFile) :
    PatchResult × FSFile :=
  match st.live with
  | none => (.notFound, st)
  | some content =>
    if alreadyPatchedTest content then (.alreadyPatched, st)
    else
      match an content with
      | none => (.unrecognized, st)
      | some a =>
        if countOcc content a.target ≠ 1 then (.ambiguous, st)
        else
          (.patched,
            { live := some (replaceFirst content a.target a.replacement),
              bak := match st.bak with
                     | none => some content
                     | some b => some b })

/-- `patchFile` proper: `patchFileWith` applied to `analyzeFile`. -/
def patchFileR (st : FSFile) : PatchResult × FSFile := patchFileWith analyzeFile st

/-- The outcome of `revertFile` (patch.js lines 291-299). -/
inductive RevertResult where
  | skipped
  | restored
deriving DecidableEq

/-- Translation of `revertFile`: no backup means a reported no-op; otherwise
the backup is copied over the live file and kept. -/
def revertFileR (st : FSFile) : RevertResult × FSFile :=
  match st.bak with
  | none => (.skipped, st)
  | some b => (.restored, { live := some b, bak := some b })

/-- The apply branch of `main` (patch.js line 392):
`files.every(f => patchFile(...))`.  JS `Array.prototype.every` stops at the
first `false`, so the remaining files are returned unprocessed. -/
def applyEvery : List FSFile → Bool × List FSFile
  | [] => (true, [])
  | f :: rest =>
    let (r, f') := patchFileR f
    if isSuccess r then
      let (b, rest') := applyEvery rest
      (b, f' :: rest')
    else (false, f' :: rest)

/-- The apply action of `main` (patch.js lines 391-396): run the files through
`applyEvery`, print a summary, and return.  `main` calls no `process.exit` in
this branch, so the process exits with code 0 on completion; the first
component records that exit code. -/
def applyMain (files : List FSFile) : Nat × Bool × List FSFile :=
  let (ok, files') := applyEvery files
  (0, ok, files')

/-- Iterated apply on one file's state (the state after n runs of patchFile). -/
def applyIterate : Nat → FSFile → FSFile
  | 0, st => st
  | n + 1, st => applyIterate n (patchFileR st).2

/-- Modelled from the spec, for claim C7: the scheduling-hook tally as the
claim describes it, excluding only the stage-1 wrapping-function alias from
the weight-1 window tally (the claim does not exclude the literal aliases
`var` and `new`). -/
def candidatesSpecOf (content : List Char) (caps : OnCaps) : List (List Char × Nat) :=
  (cleanupScan content).foldl
    (fun t a => if a ≠ caps.callbackAlias then bump t a 5 else t)
    ((effectScan (nearbyOf content caps)).foldl
      (fun t a => if a ≠ caps.callbackAlias then bump t a 1 else t) [])

/-- Modelled from the spec, for claim C7: the scheduling-hook selection rule
as the claim describes it — the alias of highest cumulative weighted count
over the tally of `candidatesSpecOf`, ties broken by first-discovered order,
i.e. the tally is walked in pure insertion order. -/
def hookSelectSpec (content : List Char) : Option (List Char) :=
  match onChangeFind content with
  | none => none
  | some caps => pickMaxGo none 0 (candidatesSpecOf content caps)

/-! Concrete texts used as witnesses and counterexamples.  `sStr` is the
onChange-handler shape from the spec's example scenario; `ctxStr` provides
the policy-variable, secure-mode-variable and scheduling-hook context. -/

/-- The structural onChange-handler shape (the spec's example scenario). -/
def sStr : String :=
  "y=Mt(_=>\x7bh?.setTerminalAutoExecutionPolicy?.(_),_===Dhe.EAGER&&b(!0)\x7d,[])"

/-- Supporting context: policy variable, secure-mode variable and one
scheduling-hook candidate. -/
def ctxStr : String :=
  "u=h?.terminalAutoExecutionPolicy??Dhe.OFF,d=h?.secureModeEnabled??!1,mn(()=>\x7bab.cd()\x7d,[u]),"

/-- A fully patchable file: context followed by exactly one handler. -/
def sampleChars : List Char := strChars (ctxStr ++ sStr)

/-- The stage-1 captures on `sampleChars`. -/
def capsS : OnCaps :=
  { assignVar := strChars "y", callbackAlias := strChars "Mt",
    argName := strChars "_", enumAlias := strChars "Dhe",
    confirmFn := strChars "b", fullMatch := strChars sStr }

/-- Two verbatim copies of the handler and no supporting context. -/
def ssChars : List Char := strChars (sStr ++ sStr)

/-- A text that passes the already-patched test and still contains the
handler shape twice verbatim. -/
def t3Chars : List Char :=
  strChars ("_aep=mn(()=>\x7bu===Dhe.EAGER&&!d&&b(!0)\x7d,[])," ++ sStr ++ sStr)

/-- A second handler instance with different identifiers. -/
def zStr : String :=
  "q=Nt(w=>\x7bg?.setTerminalAutoExecutionPolicy?.(w),w===Dhe.EAGER&&k(!0)\x7d,[])"

/-- A text on which the stage-1 shape matches at two distinct positions (with
different captures), with full supporting context for the first match. -/
def t6Chars : List Char := strChars (ctxStr ++ sStr ++ zStr)

/-- Context containing two `var(()=>...)` effect-shape occurrences and one
`mn(()=>...)` occurrence, followed by one handler. -/
def t7Chars : List Char :=
  strChars
    ("u=h?.terminalAutoExecutionPolicy??Dhe.OFF,d=h?.secureModeEnabled??!1," ++
     "var(()=>\x7babcd\x7d,[1]),var(()=>\x7babcd\x7d,[1]),mn(()=>\x7babcd\x7d,[2])," ++ sStr)

/-- Context containing one `ab(()=>...)` effect-shape occurrence followed by
one digit-only `12(()=>...)` occurrence, then one handler: the two candidate
aliases tie at weight 1, and `Object.entries` enumerates the array-index key
`12` before the insertion-earlier key `ab`. -/
def t8Chars : List Char :=
  strChars
    ("u=h?.terminalAutoExecutionPolicy??Dhe.OFF,d=h?.secureModeEnabled??!1," ++
     "ab(()=>\x7bxyz()\x7d,[1]),12(()=>\x7bxyz()\x7d,[2])," ++ sStr)

/-- The condition of claim C2: analysis succeeds and the matched text occurs
exactly once verbatim (so that apply takes the write path or the
already-patched path, never the ambiguous one). -/
def applicable (content : List Char) : Bool :=
  match analyzeFile content with
  | some a => countOcc content a.target == 1
  | none => false

/-- Number of positions of `s` at which the stage-1 regex matches (used to
state claim C6; the engine itself never computes this). -/
def onChangePositions : List Char → Nat
  | [] => 0
  | c :: t => (if (matchOnChangeAt (c :: t)).isSome then 1 else 0) + onChangePositions t

/-- `x` is the first key of maximal weight in the tally `l`: every entry
before it is strictly lighter and every entry after it is no heavier. -/
def FirstMax (l : List (List Char × Nat)) (x : List Char) : Prop :=
  ∃ l₁ w l₂, l = l₁ ++ (x, w) :: l₂ ∧ (∀ p ∈ l₁, p.2 < w) ∧ (∀ p ∈ l₂, p.2 ≤ w)

/-- The analysis record produced on `sampleChars`. -/
def aS : Analysis :=
  { assignVar := strChars "y", callbackAlias := strChars "Mt",
    argName := strChars "_", enumAlias := strChars "Dhe",
    confirmFn := strChars "b", policyVar := strChars "u",
    secureVar := strChars "d", useEffectAlias := strChars "mn",
    target := strChars sStr,
    replacement := strChars ("_aep=mn(()=>\x7bu===Dhe.EAGER&&!d&&b(!0)\x7d,[])," ++ sStr),
    patchMarker := strChars "_aep=mn(()=>\x7bu===Dhe.EAGER" }

/-- The analysis record produced on `t8Chars`: the tie between the aliases
`ab` and `12` is resolved in favour of the array-index key `12`, which
`Object.entries` enumerates first. -/
def a8 : Analysis :=
  { assignVar := strChars "y", callbackAlias := strChars "Mt",
    argName := strChars "_", enumAlias := strChars "Dhe",
    confirmFn := strChars "b", policyVar := strChars "u",
    secureVar := strChars "d", useEffectAlias := strChars "12",
    target := strChars sStr,
    replacement := strChars ("_aep=12(()=>\x7bu===Dhe.EAGER&&!d&&b(!0)\x7d,[])," ++ sStr),
    patchMarker := strChars "_aep=12(()=>\x7bu===Dhe.EAGER" }

end Patch



namespace Patch

/-! Basic facts about the string primitives. -/

/-- A word token: non-empty and all word characters. -/
def wordTokB (l : List Char) : Bool := !l.isEmpty && l.all isWordChar

lemma expectL_eq_some {lit s r : List Char} :
    expectL lit s = some r ↔ lit.isPrefixOf s = true ∧ r = s.drop lit.length := by
  unfold expectL
  split <;> simp_all
  exact eq_comm

lemma expectL_append (lit r : List Char) : expectL lit (lit ++ r) = some r := by
  rw [expectL_eq_some]
  constructor
  · rw [List.isPrefixOf_iff_prefix]
    exact List.prefix_append lit r
  · rw [List.drop_left]

lemma takeWhile_all_append (p : Char → Bool) {w : List Char} (r : List Char)
    (hw : w.all p = true) (hr : ∀ c, r.head? = some c → p c = false) :
    (w ++ r).takeWhile p = w ∧ (w ++ r).dropWhile p = r := by
  induction w with
  | nil =>
    simp only [List.nil_append]
    cases r with
    | nil => simp
    | cons c t =>
      have := hr c rfl
      simp [List.takeWhile_cons, List.dropWhile_cons, this]
  | cons a w ih =>
    simp only [List.all_cons, Bool.and_eq_true] at hw
    have := ih hw.2
    simp [List.takeWhile_cons, List.dropWhile_cons, hw.1, this.1, this.2]

lemma all_takeWhile (p : Char → Bool) (l : List Char) : (l.takeWhile p).all p = true := by
  induction l with
  | nil => simp
  | cons c t ih =>
    by_cases h : p c = true
    · simp [List.takeWhile_cons, h, ih]
    · simp only [Bool.not_eq_true] at h
      simp [List.takeWhile_cons, h]

lemma scanB_append_right {p : List Char → Bool} {y : List Char} (x : List Char)
    (h : scanB p y = true) : scanB p (x ++ y) = true := by
  induction x with
  | nil => simpa using h
  | cons c t ih =>
    unfold scanB
    simp only [List.cons_append]
    rw [Bool.or_eq_true]
    right
    exact ih

lemma scanB_of_head {p : List Char → Bool} {y : List Char} (h : p y = true) :
    scanB p y = true := by
  unfold scanB
  rw [Bool.or_eq_true]
  left
  exact h

lemma hasSub_of_isPrefixOf {y pat : List Char} (h : pat.isPrefixOf y = true) :
    hasSub y pat = true := by
  unfold hasSub
  rw [Bool.or_eq_true]
  left
  exact h

lemma hasSub_append_right {y pat : List Char} (x : List Char)
    (h : hasSub y pat = true) : hasSub (x ++ y) pat = true := by
  induction x with
  | nil => simpa using h
  | cons c t ih =>
    unfold hasSub
    simp only [List.cons_append]
    rw [Bool.or_eq_true]
    right
    exact ih

lemma isPrefixOf_append (pat r : List Char) : pat.isPrefixOf (pat ++ r) = true := by
  rw [List.isPrefixOf_iff_prefix]
  exact List.prefix_append pat r

end Patch

namespace Patch

/-! Occurrence counting and first-occurrence replacement. -/

lemma countOccAux_nil_sep : ∀ (fuel : Nat) (s : List Char), countOccAux [] fuel s = 0 := by
  intro fuel
  induction fuel with
  | zero => intro s; simp [countOccAux]
  | succ fuel ih =>
    intro s
    unfold countOccAux
    rw [if_neg (by simp)]
    cases s with
    | nil => rfl
    | cons c t => exact ih t

/-- A positive occurrence count yields the decomposition at the first
occurrence, and `replaceFirst` rewrites exactly there. -/
lemma replaceFirst_decompAux {pat : List Char} (rep : List Char) :
    ∀ fuel s, 0 < countOccAux pat fuel s →
      ∃ u v, s = u ++ pat ++ v ∧ replaceFirst s pat rep = u ++ rep ++ v := by
  intro fuel
  induction fuel with
  | zero =>
    intro s h
    exact absurd h (by simp [countOccAux])
  | succ fuel ih =>
    intro s h
    by_cases hp : pat.isPrefixOf s = true ∧ pat ≠ []
    · obtain ⟨hpre, hne⟩ := hp
      rw [List.isPrefixOf_iff_prefix] at hpre
      obtain ⟨v, hv⟩ := hpre
      refine ⟨[], v, by simpa using hv.symm, ?_⟩
      unfold replaceFirst
      rw [if_pos (by rw [List.isPrefixOf_iff_prefix]; exact ⟨v, hv⟩)]
      have : List.drop pat.length s = v := by
        rw [← hv, List.drop_left]
      rw [this]
      simp
    · cases s with
      | nil =>
        exfalso
        unfold countOccAux at h
        rw [if_neg hp] at h
        exact absurd h (by simp)
      | cons c t =>
        by_cases hne : pat = []
        · subst hne
          rw [countOccAux_nil_sep] at h
          exact absurd h (by simp)
        have hpc : ¬ pat.isPrefixOf (c :: t) = true := by
          intro hpre
          exact hp ⟨hpre, hne⟩
        have ht : 0 < countOccAux pat fuel t := by
          unfold countOccAux at h
          rw [if_neg hp] at h
          exact h
        obtain ⟨u, v, hs, hr⟩ := ih t ht
        refine ⟨c :: u, v, by simp [hs], ?_⟩
        unfold replaceFirst
        rw [if_neg (by simp [hpc])]
        simp [hr]

lemma replaceFirst_decomp {s pat : List Char} (h : 0 < countOcc s pat) (rep : List Char) :
    ∃ u v, s = u ++ pat ++ v ∧ replaceFirst s pat rep = u ++ rep ++ v :=
  replaceFirst_decompAux rep (s.length + 1) s h

/-! The EAGER-inside test on synthesized bodies. -/

lemma eagerInner_append {B : List Char} (hB : B ≠ []) (A : List Char) :
    eagerInner (A ++ strChars "EAGER" ++ B) = true := by
  induction A with
  | nil =>
    simp only [List.nil_append]
    obtain ⟨c, t, hct⟩ : ∃ c t, strChars "EAGER" ++ B = c :: t := by
      cases hB' : strChars "EAGER" ++ B with
      | nil => simp [strChars] at hB'
      | cons c t => exact ⟨c, t, rfl⟩
    rw [hct]
    unfold eagerInner
    rw [Bool.or_eq_true]
    left
    rw [Bool.and_eq_true, ← hct]
    constructor
    · exact isPrefixOf_append _ _
    · simp only [List.length_append, decide_eq_true_eq]
      have : 0 < B.length := List.length_pos.mpr hB
      simp [strChars]
      omega
  | cons a A ih =>
    have : (a :: A) ++ strChars "EAGER" ++ B = a :: (A ++ strChars "EAGER" ++ B) := by
      simp
    rw [this]
    unfold eagerInner
    rw [Bool.or_eq_true]
    right
    exact ih

lemma properEager_append {A B : List Char} (hA : A ≠ []) (hB : B ≠ []) :
    properEager (A ++ strChars "EAGER" ++ B) = true := by
  match A, hA with
  | a :: A', _ =>
    have : (a :: A') ++ strChars "EAGER" ++ B = a :: (A' ++ strChars "EAGER" ++ B) := by
      simp
    rw [this]
    unfold properEager
    exact eagerInner_append hB A'

end Patch

namespace Patch

/-! The synthesized patch fragment passes the already-patched test. -/

lemma noBrace_of_word {l : List Char} (h : l.all isWordChar = true) :
    l.all (fun c => !(c == '\x7d')) = true := by
  rw [List.all_eq_true] at *
  intro c hc
  have hw := h c hc
  have hne : c ≠ '\x7d' := by
    intro hcb
    subst hcb
    exact absurd hw (by decide)
  simp [hne]

lemma patchBody_noBrace {p e sec cf : List Char} (hp : p.all isWordChar = true)
    (he : e.all isWordChar = true) (hsec : sec.all isWordChar = true)
    (hcf : cf.all isWordChar = true) :
    (patchBody p e sec cf).all (fun c => !(c == '\x7d')) = true := by
  simp only [patchBody, List.all_append, Bool.and_eq_true]
  refine ⟨⟨⟨⟨⟨⟨⟨noBrace_of_word hp, by decide⟩, noBrace_of_word he⟩, by decide⟩,
    noBrace_of_word hsec⟩, by decide⟩, noBrace_of_word hcf⟩, by decide⟩

lemma properEager_patchBody {p e sec cf : List Char} :
    properEager (patchBody p e sec cf) = true := by
  have hsplit : patchBody p e sec cf =
      (p ++ strChars "===" ++ e ++ strChars ".") ++ strChars "EAGER" ++
      (strChars "&&!" ++ sec ++ strChars "&&" ++ cf ++ strChars "(!0)") := by
    have h1 : strChars ".EAGER&&!" = strChars "." ++ (strChars "EAGER" ++ strChars "&&!") := rfl
    rw [patchBody, h1]
    simp [List.append_assoc]
  rw [hsplit]
  refine properEager_append ?_ ?_
  · intro hc
    have := congrArg List.length hc
    simp [strChars] at this
  · intro hc
    have := congrArg List.length hc
    simp [strChars] at this

lemma matchExistingAt_patchCode {al p e sec cf : List Char}
    (hal : wordTokB al = true) (hp : p.all isWordChar = true)
    (he : e.all isWordChar = true) (hsec : sec.all isWordChar = true)
    (hcf : cf.all isWordChar = true) (suf : List Char) :
    matchExistingAt (patchCodeOf al p e sec cf ++ suf) = true := by
  have halw : al.all isWordChar = true := by
    simp only [wordTokB, Bool.and_eq_true] at hal
    exact hal.2
  have halne : al.isEmpty = false := by
    simp only [wordTokB, Bool.and_eq_true, Bool.not_eq_true'] at hal
    exact hal.1
  have hassoc : patchCodeOf al p e sec cf ++ suf =
      strChars "_aep=" ++ (al ++ (strChars "(()=>\x7b" ++
        (patchBody p e sec cf ++ (strChars "\x7d,[])," ++ suf)))) := by
    simp [patchCodeOf, List.append_assoc]
  have hsplit1 : (strChars "(()=>\x7b" ++
      (patchBody p e sec cf ++ (strChars "\x7d,[])," ++ suf))) =
      '(' :: (strChars "()=>\x7b" ++
      (patchBody p e sec cf ++ (strChars "\x7d,[])," ++ suf))) := rfl
  obtain ⟨htw1, hdw1⟩ := takeWhile_all_append isWordChar
    (strChars "(()=>\x7b" ++ (patchBody p e sec cf ++ (strChars "\x7d,[])," ++ suf)))
    halw (by rw [hsplit1]; intro c hc; simp at hc; subst hc; decide)
  have hsplit2 : strChars "\x7d,[])," ++ suf =
      '\x7d' :: (strChars ",[])," ++ suf) := rfl
  obtain ⟨htw2, hdw2⟩ := takeWhile_all_append (fun c => !(c == '\x7d'))
    (strChars "\x7d,[])," ++ suf)
    (patchBody_noBrace hp he hsec hcf)
    (by rw [hsplit2]; intro c hc; simp at hc; subst hc; decide)
  rw [hassoc]
  unfold matchExistingAt
  rw [expectL_append]
  simp only [htw1, hdw1]
  rw [if_neg (by simp [halne])]
  rw [expectL_append]
  simp only [htw2, hdw2, Bool.and_eq_true]
  constructor
  · exact properEager_patchBody
  · have hsplit3 : strChars "\x7d,[])," ++ suf =
        strChars "\x7d,[])" ++ (strChars "," ++ suf) := rfl
    rw [hsplit3]
    exact isPrefixOf_append _ _

end Patch

namespace Patch

lemma alreadyPatchedTest_of_patchCode {al p e sec cf : List Char}
    (hal : wordTokB al = true) (hp : p.all isWordChar = true)
    (he : e.all isWordChar = true) (hsec : sec.all isWordChar = true)
    (hcf : cf.all isWordChar = true) (pre suf : List Char) :
    alreadyPatchedTest (pre ++ patchCodeOf al p e sec cf ++ suf) = true := by
  unfold alreadyPatchedTest
  rw [Bool.and_eq_true]
  constructor
  · rw [List.append_assoc]
    refine hasSub_append_right pre ?_
    refine hasSub_of_isPrefixOf ?_
    have : patchCodeOf al p e sec cf ++ suf =
        strChars "_aep=" ++ (al ++ (strChars "(()=>\x7b" ++
          (patchBody p e sec cf ++ (strChars "\x7d,[])," ++ suf)))) := by
      simp [patchCodeOf, List.append_assoc]
    rw [this]
    exact isPrefixOf_append _ _
  · rw [List.append_assoc]
    refine scanB_append_right pre ?_
    exact scanB_of_head (matchExistingAt_patchCode hal hp he hsec hcf suf)

/-! State-transition facts about `patchFile`. -/

lemma patchFileWith_bak_some {an : List Char → Option Analysis} {st : FSFile}
    {b : List Char} (h : st.bak = some b) : (patchFileWith an st).2.bak = some b := by
  unfold patchFileWith
  cases hl : st.live with
  | none => exact h
  | some content =>
    by_cases hap : alreadyPatchedTest content = true
    · simp [hap, h]
    · simp only [Bool.not_eq_true] at hap
      cases han : an content with
      | none => simp [hap, han, h]
      | some a =>
        by_cases hc : countOcc content a.target ≠ 1
        · simp [hap, han, hc, h]
        · simp [hap, han, hc, h]

lemma patchFileR_bak_some {st : FSFile} {b : List Char} (h : st.bak = some b) :
    (patchFileR st).2.bak = some b :=
  patchFileWith_bak_some h

lemma applyIterate_bak_some {st : FSFile} {b : List Char} (h : st.bak = some b) :
    ∀ n, (applyIterate n st).bak = some b := by
  intro n
  induction n generalizing st with
  | zero => exact h
  | succ n ih =>
    unfold applyIterate
    exact ih (patchFileR_bak_some h)

lemma patchFileR_write_has_bak {st : FSFile}
    (h : (patchFileR st).2.live ≠ st.live) : (patchFileR st).2.bak ≠ none := by
  cases hl : st.live with
  | none =>
    exfalso
    exact h (by simp [patchFileR, patchFileWith, hl])
  | some content =>
    by_cases hap : alreadyPatchedTest content = true
    · exfalso
      exact h (by simp [patchFileR, patchFileWith, hl, hap])
    · simp only [Bool.not_eq_true] at hap
      cases han : analyzeFile content with
      | none =>
        exfalso
        exact h (by simp [patchFileR, patchFileWith, hl, hap, han])
      | some a =>
        by_cases hc : countOcc content a.target = 1
        · cases hb : st.bak with
          | none => simp [patchFileR, patchFileWith, hl, hap, han, hc, hb]
          | some b => simp [patchFileR, patchFileWith, hl, hap, han, hc, hb]
        · exfalso
          exact h (by simp [patchFileR, patchFileWith, hl, hap, han, hc])

end Patch


namespace Patch

/-! Well-formedness of the captured identifiers. -/

lemma wordTokB_takeWhile {l : List Char}
    (h : ¬ (l.takeWhile isWordChar).isEmpty = true) :
    wordTokB (l.takeWhile isWordChar) = true := by
  simp only [wordTokB, Bool.and_eq_true, Bool.not_eq_true']
  exact ⟨by simpa using h, all_takeWhile isWordChar l⟩

lemma matchOnChangeAt_wordTok {s : List Char} {caps : OnCaps}
    (h : matchOnChangeAt s = some caps) :
    wordTokB caps.assignVar = true ∧ wordTokB caps.callbackAlias = true ∧
    wordTokB caps.argName = true ∧ wordTokB caps.enumAlias = true ∧
    wordTokB caps.confirmFn = true := by
  simp only [matchOnChangeAt] at h
  repeat' split at h
  any_goals exact Option.noConfusion h
  injection h with h
  subst h
  refine ⟨?_, ?_, ?_, ?_, ?_⟩ <;> exact wordTokB_takeWhile (by assumption)

lemma onChangeFind_exists {content : List Char} {caps : OnCaps}
    (h : onChangeFind content = some caps) :
    ∃ s, matchOnChangeAt s = some caps := by
  induction content with
  | nil =>
    unfold onChangeFind at h
    exact ⟨[], h⟩
  | cons c t ih =>
    unfold onChangeFind at h
    cases hm : matchOnChangeAt (c :: t) with
    | some c' =>
      rw [hm] at h
      injection h with h
      exact ⟨c :: t, by rw [hm, h]⟩
    | none => rw [hm] at h; exact ih h

lemma onChangeFind_wordTok {content : List Char} {caps : OnCaps}
    (h : onChangeFind content = some caps) :
    wordTokB caps.assignVar = true ∧ wordTokB caps.callbackAlias = true ∧
    wordTokB caps.argName = true ∧ wordTokB caps.enumAlias = true ∧
    wordTokB caps.confirmFn = true := by
  obtain ⟨s, hs⟩ := onChangeFind_exists h
  exact matchOnChangeAt_wordTok hs

lemma matchPolicyAt_wordTok {s e v : List Char} (h : matchPolicyAt s e = some v) :
    wordTokB v = true := by
  simp only [matchPolicyAt] at h
  repeat' split at h
  any_goals exact Option.noConfusion h
  injection h with h
  subst h
  exact wordTokB_takeWhile (by assumption)

lemma policyFind_wordTok {s e v : List Char} (h : policyFind s e = some v) :
    wordTokB v = true := by
  induction s with
  | nil =>
    unfold policyFind at h
    exact matchPolicyAt_wordTok h
  | cons c t ih =>
    unfold policyFind at h
    cases hm : matchPolicyAt (c :: t) e with
    | some c' =>
      rw [hm] at h
      injection h with h
      subst h
      exact matchPolicyAt_wordTok hm
    | none => rw [hm] at h; exact ih h

lemma matchSecureAt_wordTok {s v : List Char} (h : matchSecureAt s = some v) :
    wordTokB v = true := by
  simp only [matchSecureAt] at h
  repeat' split at h
  any_goals exact Option.noConfusion h
  injection h with h
  subst h
  exact wordTokB_takeWhile (by assumption)

lemma secureFind_wordTok {s v : List Char} (h : secureFind s = some v) :
    wordTokB v = true := by
  induction s with
  | nil =>
    unfold secureFind at h
    exact matchSecureAt_wordTok h
  | cons c t ih =>
    unfold secureFind at h
    cases hm : matchSecureAt (c :: t) with
    | some c' =>
      rw [hm] at h
      injection h with h
      subst h
      exact matchSecureAt_wordTok hm
    | none => rw [hm] at h; exact ih h

end Patch

namespace Patch

lemma matchEffectAt_wordTok {s al rest : List Char}
    (h : matchEffectAt s = some (al, rest)) : wordTokB al = true := by
  simp only [matchEffectAt] at h
  repeat' split at h
  any_goals exact Option.noConfusion h
  injection h with h
  have hal : al = s.takeWhile isWordChar := by
    have := congrArg Prod.fst h
    simpa using this.symm
  subst hal
  rename_i hlen _ _
  simp only [wordTokB, Bool.and_eq_true, Bool.not_eq_true']
  refine ⟨?_, all_takeWhile isWordChar s⟩
  rw [List.isEmpty_eq_false_iff_exists_mem]
  rcases hlen with h2 | h3
  · have : (s.takeWhile isWordChar).length ≠ 0 := by omega
    rcases List.exists_mem_of_length_pos (Nat.pos_of_ne_zero this) with ⟨x, hx⟩
    exact ⟨x, hx⟩
  · have : (s.takeWhile isWordChar).length ≠ 0 := by omega
    rcases List.exists_mem_of_length_pos (Nat.pos_of_ne_zero this) with ⟨x, hx⟩
    exact ⟨x, hx⟩

lemma matchCleanupAt_wordTok {s al rest : List Char}
    (h : matchCleanupAt s = some (al, rest)) : wordTokB al = true := by
  simp only [matchCleanupAt] at h
  repeat' split at h
  any_goals exact Option.noConfusion h
  injection h with h
  have hal : al = s.takeWhile isWordChar := by
    have := congrArg Prod.fst h
    simpa using this.symm
  subst hal
  rename_i hlen _ _
  simp only [wordTokB, Bool.and_eq_true, Bool.not_eq_true']
  refine ⟨?_, all_takeWhile isWordChar s⟩
  rw [List.isEmpty_eq_false_iff_exists_mem]
  rcases hlen with h2 | h3
  · have : (s.takeWhile isWordChar).length ≠ 0 := by omega
    rcases List.exists_mem_of_length_pos (Nat.pos_of_ne_zero this) with ⟨x, hx⟩
    exact ⟨x, hx⟩
  · have : (s.takeWhile isWordChar).length ≠ 0 := by omega
    rcases List.exists_mem_of_length_pos (Nat.pos_of_ne_zero this) with ⟨x, hx⟩
    exact ⟨x, hx⟩

lemma scanAliasesAux_mem {m : List Char → Option (List Char × List Char)} :
    ∀ (fuel : Nat) (b : Bool) (s al : List Char), al ∈ scanAliasesAux m fuel b s →
      ∃ s' r, m s' = some (al, r) := by
  intro fuel
  induction fuel with
  | zero =>
    intro b s al h
    simp [scanAliasesAux] at h
  | succ fuel ih =>
    intro b s al h
    cases s with
    | nil => simp [scanAliasesAux] at h
    | cons c t =>
      unfold scanAliasesAux at h
      cases hm : (if b then none else m (c :: t)) with
      | some p =>
        obtain ⟨al', after⟩ := p
        rw [hm] at h
        rcases List.mem_cons.mp h with h | h
        · subst h
          cases b with
          | true => simp at hm
          | false => exact ⟨c :: t, after, by simpa using hm⟩
        · exact ih _ _ _ h
      | none =>
        rw [hm] at h
        exact ih _ _ _ h

end Patch

namespace Patch

/-! Keys of the candidate tally. -/

lemma bump_keys (P : List Char → Prop) {t : List (List Char × Nat)} {a : List Char}
    {w : Nat} (ht : ∀ q ∈ t, P q.1) (ha : P a) : ∀ q ∈ bump t a w, P q.1 := by
  induction t with
  | nil =>
    intro q hq
    simp only [bump, List.mem_singleton] at hq
    rw [hq]
    exact ha
  | cons p t ih =>
    intro q hq
    obtain ⟨b, c⟩ := p
    unfold bump at hq
    by_cases hab : a = b
    · rw [if_pos hab] at hq
      rcases List.mem_cons.mp hq with h | h
      · rw [h]
        exact ht (b, c) (by simp)
      · exact ht q (List.mem_cons_of_mem _ h)
    · rw [if_neg hab] at hq
      rcases List.mem_cons.mp hq with h | h
      · rw [h]
        exact ht (b, c) (by simp)
      · exact ih (fun q hq => ht q (List.mem_cons_of_mem _ hq)) q h

lemma foldl_keys (P : List Char → Prop)
    (f : List (List Char × Nat) → List Char → List (List Char × Nat))
    (hf : ∀ t a, (∀ q ∈ t, P q.1) → P a → ∀ q ∈ f t a, P q.1) :
    ∀ (l : List (List Char)) (t : List (List Char × Nat)),
      (∀ q ∈ t, P q.1) → (∀ a ∈ l, P a) → ∀ q ∈ l.foldl f t, P q.1 := by
  intro l
  induction l with
  | nil => intro t ht _ q hq; exact ht q (by simpa using hq)
  | cons a l ih =>
    intro t ht hl q hq
    simp only [List.foldl_cons] at hq
    exact ih (f t a) (hf t a ht (hl a (by simp)))
      (fun b hb => hl b (List.mem_cons_of_mem _ hb)) q hq

lemma pickMaxGo_mem :
    ∀ (l : List (List Char × Nat)) (best : Option (List Char)) (maxc : Nat)
      (x : List Char), pickMaxGo best maxc l = some x →
      best = some x ∨ ∃ c, (x, c) ∈ l := by
  intro l
  induction l with
  | nil => intro best maxc x h; exact Or.inl h
  | cons p t ih =>
    intro best maxc x h
    obtain ⟨a, c⟩ := p
    unfold pickMaxGo at h
    by_cases hc : maxc < c
    · rw [if_pos hc] at h
      rcases ih (some a) c x h with h1 | h1
      · injection h1 with h1
        exact Or.inr ⟨c, by rw [← h1]; simp⟩
      · obtain ⟨c', hc'⟩ := h1
        exact Or.inr ⟨c', List.mem_cons_of_mem _ hc'⟩
    · rw [if_neg hc] at h
      rcases ih best maxc x h with h1 | h1
      · exact Or.inl h1
      · obtain ⟨c', hc'⟩ := h1
        exact Or.inr ⟨c', List.mem_cons_of_mem _ hc'⟩

lemma insertByVal_mem {p q : List Char × Nat} :
    ∀ {t : List (List Char × Nat)}, q ∈ insertByVal p t → q = p ∨ q ∈ t := by
  intro t
  induction t with
  | nil =>
    intro h
    simp only [insertByVal, List.mem_singleton] at h
    exact Or.inl h
  | cons r t ih =>
    intro h
    unfold insertByVal at h
    by_cases hlt : keyVal p.1 < keyVal r.1
    · rw [if_pos hlt] at h
      rcases List.mem_cons.mp h with h1 | h1
      · exact Or.inl h1
      · exact Or.inr h1
    · rw [if_neg hlt] at h
      rcases List.mem_cons.mp h with h1 | h1
      · exact Or.inr (by rw [h1]; simp)
      · rcases ih h1 with h2 | h2
        · exact Or.inl h2
        · exact Or.inr (List.mem_cons_of_mem _ h2)

lemma sortByVal_mem {q : List Char × Nat} :
    ∀ {t : List (List Char × Nat)}, q ∈ sortByVal t → q ∈ t := by
  intro t
  induction t with
  | nil => intro h; simp [sortByVal] at h
  | cons p t ih =>
    intro h
    unfold sortByVal at h
    rcases insertByVal_mem h with h1 | h1
    · rw [h1]; simp
    · exact List.mem_cons_of_mem _ (ih h1)

lemma entriesJS_mem {q : List Char × Nat} {t : List (List Char × Nat)}
    (h : q ∈ entriesJS t) : q ∈ t := by
  unfold entriesJS at h
  rcases List.mem_append.mp h with h1 | h1
  · exact List.mem_of_mem_filter (sortByVal_mem h1)
  · exact List.mem_of_mem_filter h1

lemma pickMax_nil : pickMax ([] : List (List Char × Nat)) = none := rfl

lemma pickMax_mem {l : List (List Char × Nat)} {x : List Char}
    (h : pickMax l = some x) : ∃ c, (x, c) ∈ l := by
  rcases pickMaxGo_mem (entriesJS l) none 0 x h with h1 | h1
  · exact Option.noConfusion h1
  · obtain ⟨c, hc⟩ := h1
    exact ⟨c, entriesJS_mem hc⟩

lemma candidatesOf_wordTok {content : List Char} {caps : OnCaps} :
    ∀ q ∈ candidatesOf content caps, wordTokB q.1 = true := by
  unfold candidatesOf
  refine foldl_keys (fun x => wordTokB x = true) _ ?_ _ _ ?_ ?_
  · intro t a ht ha q hq
    by_cases hcb : a ≠ caps.callbackAlias
    · rw [if_pos hcb] at hq
      exact bump_keys (fun x => wordTokB x = true) ht ha q hq
    · rw [if_neg hcb] at hq
      exact ht q hq
  · refine foldl_keys (fun x => wordTokB x = true) _ ?_ _ _ ?_ ?_
    · intro t a ht ha q hq
      by_cases hcb : a ≠ caps.callbackAlias ∧ a ≠ strChars "var" ∧ a ≠ strChars "new"
      · rw [if_pos hcb] at hq
        exact bump_keys (fun x => wordTokB x = true) ht ha q hq
      · rw [if_neg hcb] at hq
        exact ht q hq
    · intro q hq
      simp at hq
    · intro a ha
      obtain ⟨s', r, hm⟩ := scanAliasesAux_mem _ _ _ _ ha
      exact matchEffectAt_wordTok hm
  · intro a ha
    obtain ⟨s', r, hm⟩ := scanAliasesAux_mem _ _ _ _ ha
    exact matchCleanupAt_wordTok hm

/-! Inversion of `analyzeFile`. -/

lemma analyzeFile_sound {content : List Char} {a : Analysis}
    (h : analyzeFile content = some a) :
    ∃ caps, onChangeFind content = some caps ∧
      policyFind (windowOf content caps) caps.enumAlias = some a.policyVar ∧
      secureFind (windowOf content caps) = some a.secureVar ∧
      pickMax (candidatesOf content caps) = some a.useEffectAlias ∧
      a.assignVar = caps.assignVar ∧ a.callbackAlias = caps.callbackAlias ∧
      a.argName = caps.argName ∧ a.enumAlias = caps.enumAlias ∧
      a.confirmFn = caps.confirmFn ∧ a.target = caps.fullMatch ∧
      a.replacement =
        patchCodeOf a.useEffectAlias a.policyVar a.enumAlias a.secureVar
          a.confirmFn ++ a.target := by
  unfold analyzeFile at h
  cases hoc : onChangeFind content with
  | none =>
    simp only [hoc] at h
    exact Option.noConfusion h
  | some caps =>
    simp only [hoc] at h
    cases hpf : policyFind (windowOf content caps) caps.enumAlias with
    | none =>
      simp only [hpf] at h
      exact Option.noConfusion h
    | some policyVar =>
      simp only [hpf] at h
      cases hsf : secureFind (windowOf content caps) with
      | none =>
        simp only [hsf] at h
        exact Option.noConfusion h
      | some secureVar =>
        simp only [hsf] at h
        cases hpm : pickMax (candidatesOf content caps) with
        | none =>
          simp only [hpm] at h
          exact Option.noConfusion h
        | some effectAlias =>
          simp only [hpm] at h
          injection h with h
          subst h
          exact ⟨caps, rfl, hpf, hsf, hpm, rfl, rfl, rfl, rfl, rfl, rfl, rfl⟩

end Patch

namespace Patch

/-! Round trip apply-then-revert. -/

lemma roundTrip_live (content : List Char) :
    (revertFileR (patchFileR ⟨some content, none⟩).2).2.live = some content := by
  by_cases hap : alreadyPatchedTest content = true
  · simp [patchFileR, patchFileWith, revertFileR, hap]
  · simp only [Bool.not_eq_true] at hap
    cases han : analyzeFile content with
    | none => simp [patchFileR, patchFileWith, revertFileR, hap, han]
    | some a =>
      by_cases hc : countOcc content a.target ≠ 1
      · simp [patchFileR, patchFileWith, revertFileR, hap, han, hc]
      · simp [patchFileR, patchFileWith, revertFileR, hap, han, hc]

end Patch

namespace Patch

/-- C1: a pre-existing backup is never overwritten — for any file state whose
backup is present, any number of `apply` runs (whatever the live content)
leaves the backup's bytes unchanged — and whenever a run of `apply` changes
the live file, the resulting state has a backup, i.e. the write only happens
with the backup-existence check satisfied. -/
theorem c1_backup_never_overwritten (st : FSFile) (b : List Char)
    (h : st.bak = some b) (n : Nat) :
    (applyIterate n st).bak = some b ∧
    ∀ st' : FSFile, (patchFileR st').2.live ≠ st'.live → (patchFileR st').2.bak ≠ none :=
  ⟨applyIterate_bak_some h n, fun _ h' => patchFileR_write_has_bak h'⟩

theorem c1_backup_never_overwritten_witness :
    (applyIterate 2 ⟨some sampleChars, some (strChars "bak0")⟩).bak
      = some (strChars "bak0") :=
  (c1_backup_never_overwritten ⟨some sampleChars, some (strChars "bak0")⟩
    (strChars "bak0") rfl 2).1

/-- C2: round trip — for a text on which analysis succeeds and the matched
literal is unique (`applicable`), applying from a backup-free state and then
reverting restores the live file byte-for-byte.  (The engine satisfies the
conclusion even without the hypothesis: every non-write path leaves the live
file untouched and revert then skips, and the write path first saves the
original as backup, which revert copies back.) -/
theorem c2_round_trip (content : List Char) (h : applicable content = true) :
    (revertFileR (patchFileR ⟨some content, none⟩).2).2.live = some content :=
  roundTrip_live content

theorem c2_round_trip_witness :
    applicable sampleChars = true ∧
    (revertFileR (patchFileR ⟨some sampleChars, none⟩).2).2.live = some sampleChars :=
  ⟨rfl, c2_round_trip sampleChars rfl⟩

/-- C10: the already-patched short-circuit is decided solely by the fixed
`_aep=` literal plus the generic EAGER-body regex (`alreadyPatchedTest`):
any state whose live content satisfies that predicate is reported
already-patched with the state unchanged (no analysis, no backup, no write);
and `patchFile`'s behaviour is invariant under replacing the `patchMarker`
field that analysis synthesizes by anything, i.e. the marker is never
consulted. -/
theorem c10_marker_short_circuit :
    (∀ (st : FSFile) (content : List Char), st.live = some content →
      alreadyPatchedTest content = true →
      patchFileR st = (PatchResult.alreadyPatched, st)) ∧
    (∀ (st : FSFile) (m : List Char),
      patchFileWith (fun c => (analyzeFile c).map (fun a => { a with patchMarker := m })) st
        = patchFileR st) := by
  constructor
  · intro st content hl hap
    simp [patchFileR, patchFileWith, hl, hap]
  · intro st m
    unfold patchFileR patchFileWith
    cases hl : st.live with
    | none => rfl
    | some content =>
      by_cases hap : alreadyPatchedTest content = true
      · simp [hap]
      · simp only [Bool.not_eq_true] at hap
        cases han : analyzeFile content with
        | none => simp [hap, han]
        | some a => simp [hap, han]

theorem c10_marker_short_circuit_witness :
    patchFileR ⟨some t3Chars, none⟩ = (PatchResult.alreadyPatched, ⟨some t3Chars, none⟩) :=
  c10_marker_short_circuit.1 ⟨some t3Chars, none⟩ t3Chars rfl rfl

end Patch


namespace Patch

lemma wordTokB_all {l : List Char} (h : wordTokB l = true) : l.all isWordChar = true := by
  simp only [wordTokB, Bool.and_eq_true] at h
  exact h.2

/-- After a successful write, the patched text passes the already-patched
test: the inserted fragment starts with `_aep=`, an identifier, `(()=>`, a
brace-free body with `EAGER` strictly inside, and ends in the closing
brace and `,[])`. -/
lemma patched_alreadyPatched {content : List Char} {a : Analysis}
    (han : analyzeFile content = some a) (hcount : 0 < countOcc content a.target) :
    alreadyPatchedTest (replaceFirst content a.target a.replacement) = true := by
  obtain ⟨caps, hoc, hpf, hsf, hpm, hav, hcb, hag, hen, hcf, htg, hrep⟩ :=
    analyzeFile_sound han
  have honTok := onChangeFind_wordTok hoc
  have hpTok := policyFind_wordTok hpf
  have hsTok := secureFind_wordTok hsf
  have haTok : wordTokB a.useEffectAlias = true := by
    obtain ⟨c, hcmem⟩ := pickMax_mem hpm
    exact candidatesOf_wordTok (a.useEffectAlias, c) hcmem
  have heTok : wordTokB a.enumAlias = true := by
    rw [hen]
    exact honTok.2.2.2.1
  have hcfTok : wordTokB a.confirmFn = true := by
    rw [hcf]
    exact honTok.2.2.2.2
  obtain ⟨u, v, hsplit, hrepl⟩ := replaceFirst_decomp hcount a.replacement
  rw [hrepl, hrep]
  have hassoc :
      u ++ (patchCodeOf a.useEffectAlias a.policyVar a.enumAlias a.secureVar
        a.confirmFn ++ a.target) ++ v =
      u ++ patchCodeOf a.useEffectAlias a.policyVar a.enumAlias a.secureVar
        a.confirmFn ++ (a.target ++ v) := by
    simp [List.append_assoc]
  rw [hassoc]
  exact alreadyPatchedTest_of_patchCode haTok (wordTokB_all hpTok)
    (wordTokB_all heTok) (wordTokB_all hsTok) (wordTokB_all hcfTok) u (a.target ++ v)

/-- C4: idempotence — when `apply` succeeds with a write, a second `apply` on
the resulting state reports already-patched, performs no write, and leaves
the live file byte-identical to its state after the first run. -/
theorem c4_idempotent (st st' : FSFile)
    (h : patchFileR st = (PatchResult.patched, st')) :
    patchFileR st' = (PatchResult.alreadyPatched, st') := by
  cases hl : st.live with
  | none => simp [patchFileR, patchFileWith, hl] at h
  | some content =>
    by_cases hap : alreadyPatchedTest content = true
    · simp [patchFileR, patchFileWith, hl, hap] at h
    · simp only [Bool.not_eq_true] at hap
      cases han : analyzeFile content with
      | none => simp [patchFileR, patchFileWith, hl, hap, han] at h
      | some a =>
        by_cases hc : countOcc content a.target = 1
        · simp only [patchFileR, patchFileWith, hl, hap, han, Bool.false_eq_true,
            if_false, hc, ne_eq, not_true_eq_false] at h
          have h2 : st' = ⟨some (replaceFirst content a.target a.replacement),
              match st.bak with | none => some content | some b => some b⟩ := by
            have := congrArg Prod.snd h
            simpa using this.symm
          have htest := patched_alreadyPatched han (hc ▸ Nat.one_pos)
          subst h2
          simp [patchFileR, patchFileWith, htest]
        · simp [patchFileR, patchFileWith, hl, hap, han, hc] at h

end Patch

namespace Patch

theorem c4_idempotent_witness :
    patchFileR (patchFileR ⟨some sampleChars, none⟩).2
      = (PatchResult.alreadyPatched, (patchFileR ⟨some sampleChars, none⟩).2) :=
  c4_idempotent ⟨some sampleChars, none⟩ (patchFileR ⟨some sampleChars, none⟩).2 (by rfl)

/-- C5: fail-closed extraction — whenever `analyzeFile` returns a record, all
eight extracted symbols are non-empty identifier tokens; and when the
stage-1 shape is found but any of the three supporting shapes (policy
variable in the window, secure-mode variable in the window, at least one
scheduling-hook candidate) is absent, `analyzeFile` returns `none`, so no
partial record is ever produced. -/
theorem c5_fail_closed :
    (∀ (content : List Char) (a : Analysis), analyzeFile content = some a →
      wordTokB a.assignVar = true ∧ wordTokB a.callbackAlias = true ∧
      wordTokB a.argName = true ∧ wordTokB a.enumAlias = true ∧
      wordTokB a.confirmFn = true ∧ wordTokB a.policyVar = true ∧
      wordTokB a.secureVar = true ∧ wordTokB a.useEffectAlias = true) ∧
    (∀ (content : List Char) (caps : OnCaps), onChangeFind content = some caps →
      (policyFind (windowOf content caps) caps.enumAlias = none ∨
       secureFind (windowOf content caps) = none ∨
       candidatesOf content caps = []) →
      analyzeFile content = none) := by
  constructor
  · intro content a han
    obtain ⟨caps, hoc, hpf, hsf, hpm, hav, hcb, hag, hen, hcf, htg, hrep⟩ :=
      analyzeFile_sound han
    have honTok := onChangeFind_wordTok hoc
    have haTok : wordTokB a.useEffectAlias = true := by
      obtain ⟨c, hcmem⟩ := pickMax_mem hpm
      exact candidatesOf_wordTok (a.useEffectAlias, c) hcmem
    exact ⟨hav ▸ honTok.1, hcb ▸ honTok.2.1, hag ▸ honTok.2.2.1,
      hen ▸ honTok.2.2.2.1, hcf ▸ honTok.2.2.2.2,
      policyFind_wordTok hpf, secureFind_wordTok hsf, haTok⟩
  · intro content caps hoc hdisj
    unfold analyzeFile
    rcases hdisj with h1 | h1 | h1
    · simp only [hoc, h1]
    · cases hpf : policyFind (windowOf content caps) caps.enumAlias with
      | none => simp only [hoc, hpf]
      | some p => simp only [hoc, hpf, h1]
    · cases hpf : policyFind (windowOf content caps) caps.enumAlias with
      | none => simp only [hoc, hpf]
      | some p =>
        cases hsf : secureFind (windowOf content caps) with
        | none => simp only [hoc, hpf, hsf]
        | some sec => simp only [hoc, hpf, hsf, h1, pickMax_nil]

theorem c5_fail_closed_witness :
    analyzeFile sampleChars = some aS ∧ wordTokB aS.policyVar = true ∧
    wordTokB aS.secureVar = true ∧ wordTokB aS.useEffectAlias = true := by
  refine ⟨rfl, ?_, ?_, ?_⟩
  · exact (c5_fail_closed.1 sampleChars aS rfl).2.2.2.2.2.1
  · exact (c5_fail_closed.1 sampleChars aS rfl).2.2.2.2.2.2.1
  · exact (c5_fail_closed.1 sampleChars aS rfl).2.2.2.2.2.2.2

end Patch

namespace Patch

lemma analyzeFile_target_eq {content : List Char} {caps : OnCaps} {a : Analysis}
    (hoc : onChangeFind content = some caps) (han : analyzeFile content = some a) :
    a.target = caps.fullMatch := by
  obtain ⟨caps', hoc', h3, h4, h5, h6, h7, h8, h9, h10, htg', h11⟩ :=
    analyzeFile_sound han
  rw [hoc] at hoc'
  have he := Option.some.inj hoc'
  rw [htg', ← he]

/-- C3 (amended): when the stage-1 matched literal occurs at least twice
verbatim, `apply` performs no backup and no write (the file state is
unchanged); and provided the text does not already pass the already-patched
marker test and symbol extraction succeeds, the reported outcome is the
ambiguous-target failure. -/
theorem c3_uniqueness_gate (content : List Char) (st : FSFile) (caps : OnCaps)
    (hl : st.live = some content) (hoc : onChangeFind content = some caps)
    (hc : 2 ≤ countOcc content caps.fullMatch) :
    (patchFileR st).2 = st ∧
    (alreadyPatchedTest content = false → ∀ a : Analysis,
      analyzeFile content = some a → patchFileR st = (PatchResult.ambiguous, st)) := by
  have key : ∀ a : Analysis, analyzeFile content = some a →
      countOcc content a.target ≠ 1 := by
    intro a han
    rw [analyzeFile_target_eq hoc han]
    omega
  constructor
  · by_cases hap : alreadyPatchedTest content = true
    · simp [patchFileR, patchFileWith, hl, hap]
    · simp only [Bool.not_eq_true] at hap
      cases han : analyzeFile content with
      | none => simp [patchFileR, patchFileWith, hl, hap, han]
      | some a => simp [patchFileR, patchFileWith, hl, hap, han, key a han]
  · intro hap a han
    simp [patchFileR, patchFileWith, hl, hap, han, key a han]

theorem c3_uniqueness_gate_witness :
    (patchFileR ⟨some ssChars, none⟩).2 = ⟨some ssChars, none⟩ :=
  (c3_uniqueness_gate ssChars ⟨some ssChars, none⟩ capsS rfl rfl
    (by have h2 : countOcc ssChars capsS.fullMatch = 2 := rfl
        omega)).1

/-- C3 counterexample: a text that passes the already-patched marker test
while its stage-1 matched literal occurs twice verbatim — `apply` reports
already-patched success, not the ambiguous-target failure that the claim
requires for every such text. -/
theorem c3_uniqueness_gate_cex :
    onChangeFind t3Chars = some capsS ∧
    2 ≤ countOcc t3Chars capsS.fullMatch ∧
    patchFileR ⟨some t3Chars, none⟩
      = (PatchResult.alreadyPatched, ⟨some t3Chars, none⟩) ∧
    (patchFileR ⟨some t3Chars, none⟩).1 ≠ PatchResult.ambiguous := by
  refine ⟨rfl, ?_, rfl, ?_⟩
  · have h2 : countOcc t3Chars capsS.fullMatch = 2 := rfl
    omega
  · intro hcontra
    have h1 : (patchFileR ⟨some t3Chars, none⟩).1 = PatchResult.alreadyPatched := rfl
    rw [h1] at hcontra
    exact PatchResult.noConfusion hcontra

end Patch

namespace Patch

/-! Stage-1 takes the leftmost match and performs no uniqueness check. -/

lemma onChangePositions_zero : ∀ {content : List Char},
    onChangePositions content = 0 → onChangeFind content = none := by
  intro content
  induction content with
  | nil => intro _; rfl
  | cons c t ih =>
    intro h
    unfold onChangePositions at h
    by_cases hm : (matchOnChangeAt (c :: t)).isSome = true
    · rw [if_pos hm] at h
      omega
    · rw [if_neg hm] at h
      unfold onChangeFind
      cases hmm : matchOnChangeAt (c :: t) with
      | some _ => rw [hmm] at hm; simp at hm
      | none => exact ih (by simpa using h)

lemma onChangeFind_leftmost : ∀ {content : List Char} {caps : OnCaps},
    onChangeFind content = some caps →
    ∃ k, matchOnChangeAt (content.drop k) = some caps ∧
      ∀ j, j < k → matchOnChangeAt (content.drop j) = none := by
  intro content
  induction content with
  | nil =>
    intro caps h
    exact ⟨0, h, fun j hj => absurd hj (Nat.not_lt_zero j)⟩
  | cons c t ih =>
    intro caps h
    unfold onChangeFind at h
    cases hm : matchOnChangeAt (c :: t) with
    | some caps' =>
      rw [hm] at h
      have he := Option.some.inj h
      rw [← he]
      exact ⟨0, hm, fun j hj => absurd hj (Nat.not_lt_zero j)⟩
    | none =>
      rw [hm] at h
      obtain ⟨k, hk, hlt⟩ := ih h
      refine ⟨k + 1, by simpa using hk, ?_⟩
      intro j hj
      cases j with
      | zero => simpa using hm
      | succ j' =>
        have hj' : j' < k := by omega
        simpa using hlt j' hj'

/-- C6 (amended): stage 1 reports unrecognized exactly when the structural
shape matches at no position; when it matches anywhere, extraction proceeds
with the leftmost match — no uniqueness requirement is applied at this
stage, so multiply-matching texts are not rejected here. -/
theorem c6_stage1_leftmost (content : List Char) :
    (onChangePositions content = 0 → analyzeFile content = none) ∧
    (∀ caps : OnCaps, onChangeFind content = some caps →
      ∃ k, matchOnChangeAt (content.drop k) = some caps ∧
        ∀ j, j < k → matchOnChangeAt (content.drop j) = none) := by
  constructor
  · intro h
    unfold analyzeFile
    simp only [onChangePositions_zero h]
  · intro caps h
    exact onChangeFind_leftmost h

theorem c6_stage1_leftmost_witness :
    ∃ k, matchOnChangeAt (t6Chars.drop k) = some capsS ∧
      ∀ j, j < k → matchOnChangeAt (t6Chars.drop j) = none :=
  (c6_stage1_leftmost t6Chars).2 capsS rfl

/-- C6 counterexample: a text on which the structural shape matches at two
distinct positions, yet extraction succeeds (with the first match) instead
of reporting the file as unrecognized. -/
theorem c6_stage1_leftmost_cex :
    onChangePositions t6Chars = 2 ∧ analyzeFile t6Chars ≠ none := by
  constructor
  · rfl
  · intro h
    have h2 : analyzeFile t6Chars
        = some { assignVar := strChars "y", callbackAlias := strChars "Mt",
                 argName := strChars "_", enumAlias := strChars "Dhe",
                 confirmFn := strChars "b", policyVar := strChars "u",
                 secureVar := strChars "d", useEffectAlias := strChars "mn",
                 target := strChars sStr,
                 replacement :=
                   strChars ("_aep=mn(()=>\x7bu===Dhe.EAGER&&!d&&b(!0)\x7d,[]),"
                     ++ sStr),
                 patchMarker := strChars "_aep=mn(()=>\x7bu===Dhe.EAGER" } := rfl
    rw [h] at h2
    exact Option.noConfusion h2

end Patch

namespace Patch

/-! The selection loop picks the first key of maximal weight. -/

lemma pickMaxGo_sound :
    ∀ (l : List (List Char × Nat)) (best : Option (List Char)) (maxc : Nat)
      (x : List Char), pickMaxGo best maxc l = some x →
      (best = some x ∧ ∀ p ∈ l, p.2 ≤ maxc) ∨
      (∃ l₁ w l₂, l = l₁ ++ (x, w) :: l₂ ∧ maxc < w ∧
        (∀ p ∈ l₁, p.2 ≤ maxc ∨ p.2 < w) ∧ (∀ p ∈ l₂, p.2 ≤ w)) := by
  intro l
  induction l with
  | nil =>
    intro best maxc x h
    exact Or.inl ⟨h, by simp⟩
  | cons q t ih =>
    intro best maxc x h
    obtain ⟨a, c⟩ := q
    unfold pickMaxGo at h
    by_cases hc : maxc < c
    · rw [if_pos hc] at h
      rcases ih (some a) c x h with ⟨hb, hall⟩ | ⟨t₁, w, t₂, heq, hw, h1, h2⟩
      · have ha := Option.some.inj hb
        refine Or.inr ⟨[], c, t, ?_, hc, by simp, ?_⟩
        · rw [ha]
          simp
        · intro p hp
          exact hall p hp
      · refine Or.inr ⟨(a, c) :: t₁, w, t₂, by rw [heq]; simp, by omega, ?_, h2⟩
        intro p hp
        rcases List.mem_cons.mp hp with hp1 | hp1
        · right
          rw [hp1]
          exact hw
        · rcases h1 p hp1 with hp2 | hp2
          · right
            omega
          · right
            exact hp2
    · rw [if_neg hc] at h
      rcases ih best maxc x h with ⟨hb, hall⟩ | ⟨t₁, w, t₂, heq, hw, h1, h2⟩
      · refine Or.inl ⟨hb, ?_⟩
        intro p hp
        rcases List.mem_cons.mp hp with hp1 | hp1
        · rw [hp1]
          omega
        · exact hall p hp1
      · refine Or.inr ⟨(a, c) :: t₁, w, t₂, by rw [heq]; simp, hw, ?_, h2⟩
        intro p hp
        rcases List.mem_cons.mp hp with hp1 | hp1
        · left
          rw [hp1]
          omega
        · exact h1 p hp1

lemma pickMax_firstMax {l : List (List Char × Nat)} {x : List Char}
    (h : pickMax l = some x) : FirstMax (entriesJS l) x := by
  rcases pickMaxGo_sound (entriesJS l) none 0 x h with ⟨hb, _⟩ | ⟨l₁, w, l₂, heq, hw, h1, h2⟩
  · exact Option.noConfusion hb
  · refine ⟨l₁, w, l₂, heq, ?_, h2⟩
    intro p hp
    rcases h1 p hp with hp2 | hp2
    · omega
    · exact hp2

/-- C7 (amended): the scheduling-hook alias is selected as the first key of
maximal cumulative weight in the tally built from the ±5000-character window
at weight 1 — excluding the stage-1 wrapping alias and also the literal
aliases `var` and `new` — plus the whole-file cleanup-shape occurrences at
weight 5 (excluding the wrapping alias); the tally is walked in the
`Object.entries` enumeration order (array-index keys, i.e. digit-only
aliases, first in ascending numeric order, then the remaining aliases in
insertion order), so ties are broken by that enumeration order rather than
pure first-discovered order; extraction fails when no candidate exists. -/
theorem c7_hook_selection :
    (∀ (content : List Char) (caps : OnCaps), onChangeFind content = some caps →
      candidatesOf content caps = [] → analyzeFile content = none) ∧
    (∀ (content : List Char) (caps : OnCaps) (a : Analysis),
      onChangeFind content = some caps → analyzeFile content = some a →
      FirstMax (entriesJS (candidatesOf content caps)) a.useEffectAlias) := by
  constructor
  · intro content caps hoc hcand
    unfold analyzeFile
    cases hpf : policyFind (windowOf content caps) caps.enumAlias with
    | none => simp only [hoc, hpf]
    | some p =>
      cases hsf : secureFind (windowOf content caps) with
      | none => simp only [hoc, hpf, hsf]
      | some sec => simp only [hoc, hpf, hsf, hcand, pickMax_nil]
  · intro content caps a hoc han
    obtain ⟨caps2, hoc2, h3, h4, hpm, h5, h6, h7, h8, h9, h10, h11⟩ :=
      analyzeFile_sound han
    rw [hoc] at hoc2
    have he := Option.some.inj hoc2
    subst he
    exact pickMax_firstMax hpm

theorem c7_hook_selection_witness :
    FirstMax (entriesJS (candidatesOf t8Chars capsS)) (strChars "12") :=
  c7_hook_selection.2 t8Chars capsS a8 rfl rfl

/-- C7 counterexample: on a text whose window contains two `var(()=>...)`
effect-shape occurrences and one `mn(()=>...)` occurrence, the selection rule
described by the claim (which excludes only the wrapping alias) would pick
`var` (weight 2), but the code also excludes the literal aliases `var` and
`new` and selects `mn`. -/
theorem c7_hook_selection_cex :
    (analyzeFile t7Chars).map (fun a => a.useEffectAlias) = some (strChars "mn") ∧
    hookSelectSpec t7Chars = some (strChars "var") ∧
    strChars "mn" ≠ strChars "var" := by
  refine ⟨rfl, rfl, by decide⟩

end Patch

namespace Patch

/-! The apply loop over the file list. -/

lemma applyEvery_all_success :
    ∀ l : List FSFile, (∀ g ∈ l, isSuccess (patchFileR g).1 = true) →
      applyEvery l = (true, l.map (fun g => (patchFileR g).2)) := by
  intro l
  induction l with
  | nil => intro _; rfl
  | cons f t ih =>
    intro h
    have hf : isSuccess (patchFileR f).1 = true := h f (by simp)
    have ht := ih (fun g hg => h g (List.mem_cons_of_mem _ hg))
    unfold applyEvery
    rcases hpf : patchFileR f with ⟨r, f'⟩
    rw [hpf] at hf
    simp only at hf
    simp [hf, ht, hpf]

lemma applyEvery_first_failure :
    ∀ (l₁ : List FSFile) (f : FSFile) (l₂ : List FSFile),
      (∀ g ∈ l₁, isSuccess (patchFileR g).1 = true) →
      isSuccess (patchFileR f).1 = false →
      applyEvery (l₁ ++ f :: l₂)
        = (false, l₁.map (fun g => (patchFileR g).2) ++ (patchFileR f).2 :: l₂) := by
  intro l₁
  induction l₁ with
  | nil =>
    intro f l₂ _ hf
    unfold applyEvery
    rcases hpf : patchFileR f with ⟨r, f'⟩
    rw [hpf] at hf
    simp only at hf
    simp [hf, hpf]
  | cons g t ih =>
    intro f l₂ h hf
    have hg : isSuccess (patchFileR g).1 = true := h g (by simp)
    have ht := ih f l₂ (fun g' hg' => h g' (List.mem_cons_of_mem _ hg')) hf
    simp only [List.cons_append]
    unfold applyEvery
    rcases hpg : patchFileR g with ⟨r, g'⟩
    rw [hpg] at hg
    simp only at hg
    simp [hg, ht, hpg]

lemma applyEvery_fst :
    ∀ l : List FSFile,
      (applyEvery l).1 = l.all (fun f => isSuccess (patchFileR f).1) := by
  intro l
  induction l with
  | nil => rfl
  | cons f t ih =>
    unfold applyEvery
    rcases hpf : patchFileR f with ⟨r, f'⟩
    by_cases hr : isSuccess r = true
    · rcases happ : applyEvery t with ⟨b, rest⟩
      rw [happ] at ih
      simp [hr, happ, List.all_cons, hpf, ← ih]
    · simp only [Bool.not_eq_true] at hr
      simp [hr, List.all_cons, hpf]

/-- C8 (amended): `apply` runs the files through `Array.prototype.every`,
which short-circuits — when every file succeeds, every file is processed in
order; but the first failing file stops the loop, and the files after it are
left entirely unprocessed (their states are returned untouched). -/
theorem c8_per_file_processing :
    (∀ l : List FSFile, (∀ g ∈ l, isSuccess (patchFileR g).1 = true) →
      applyEvery l = (true, l.map (fun g => (patchFileR g).2))) ∧
    (∀ (l₁ : List FSFile) (f : FSFile) (l₂ : List FSFile),
      (∀ g ∈ l₁, isSuccess (patchFileR g).1 = true) →
      isSuccess (patchFileR f).1 = false →
      applyEvery (l₁ ++ f :: l₂)
        = (false, l₁.map (fun g => (patchFileR g).2) ++ (patchFileR f).2 :: l₂)) :=
  ⟨applyEvery_all_success, applyEvery_first_failure⟩

theorem c8_per_file_processing_witness :
    applyEvery [⟨none, none⟩, ⟨some sampleChars, none⟩]
      = (false, (patchFileR ⟨none, none⟩).2 :: [⟨some sampleChars, none⟩]) :=
  c8_per_file_processing.2 [] ⟨none, none⟩ [⟨some sampleChars, none⟩]
    (fun g hg => absurd hg (List.not_mem_nil g)) rfl

/-- C8 counterexample: with a missing first file and a patchable second file,
`apply` leaves the second file untouched (it is never processed), although
processing it directly would succeed and change its state — refuting the
claim that a failure on one file does not abort processing of the remaining
files. -/
theorem c8_per_file_processing_cex :
    applyEvery [⟨none, none⟩, ⟨some sampleChars, none⟩]
      = (false, [⟨none, none⟩, ⟨some sampleChars, none⟩]) ∧
    (patchFileR ⟨some sampleChars, none⟩).1 = PatchResult.patched ∧
    (patchFileR ⟨some sampleChars, none⟩).2 ≠ ⟨some sampleChars, none⟩ := by
  refine ⟨rfl, rfl, ?_⟩
  intro h
  have h2 : (patchFileR ⟨some sampleChars, none⟩).2.bak = some sampleChars := rfl
  rw [h] at h2
  exact Option.noConfusion h2

/-- C9 (amended): the apply action never sets a non-zero exit code — `main`
returns normally from the apply branch, so the process exit code is 0 both
when every file succeeds and when some file fails; per-file failure is
reported only through the printed summary flag, which is true exactly when
every file's operation succeeds or is already satisfied. -/
theorem c9_exit_code :
    ∀ files : List FSFile, (applyMain files).1 = 0 ∧
      ((applyMain files).2.1 = true ↔
        ∀ f ∈ files, isSuccess (patchFileR f).1 = true) := by
  intro files
  rcases happ : applyEvery files with ⟨ok, files'⟩
  constructor
  · simp [applyMain, happ]
  · have h1 : (applyMain files).2.1 = ok := by simp [applyMain, happ]
    rw [h1]
    have h2 := applyEvery_fst files
    rw [happ] at h2
    simp only at h2
    rw [h2, List.all_eq_true]

theorem c9_exit_code_witness :
    (applyMain [⟨some sampleChars, none⟩]).1 = 0 :=
  (c9_exit_code [⟨some sampleChars, none⟩]).1

/-- C9 counterexample: a file list whose only file fails (it is missing), yet
the apply action's exit code is 0 — refuting the claim that the exit code is
non-zero when any file's operation fails. -/
theorem c9_exit_code_cex :
    (applyMain [⟨none, none⟩]).1 = 0 ∧
    (applyMain [⟨none, none⟩]).2.1 = false ∧
    isSuccess (patchFileR ⟨none, none⟩).1 = false :=
  ⟨rfl, rfl, rfl⟩

end Patch

